import Mathlib

/-!
Verification development for the pymc3 core: multivariate distribution
log-density kernels (quadratic-form utilities, bounding combinator,
MvNormal, Multinomial, MatrixNormal) and the array-based step-method
contract (array bijection, ArrayStep.step, metrop_select,
BlockedStep.__new__ blocking behaviour).

Machine floating-point values are embedded as an inductive type F with
explicit NaN and signed-infinity sentinels and exact rational arithmetic
for the finite values.  Transcendental primitives of the external graph
engine (ln on positive rationals, sqrt on positive rationals, ln of the
factorial / gamma function, the constant ln(2*pi)) cannot be represented
exactly by computable rationals, so every definition is parameterized by
a record Prim of rational-valued approximations of them; none of the
verified properties depends on which approximation is chosen.
-/

/-- IEEE-style scalar: NaN, +infinity, -infinity, or a finite value
(modelled as an exact rational). -/
inductive F where
  | nan : F
  | inf : F
  | ninf : F
  | num : ℚ → F
deriving DecidableEq

/-- Rational-valued approximations of the graph engine's transcendental
primitives: ln on positive rationals, sqrt on positive rationals,
ln of the factorial (gammaln(x+1)) on nonnegative rationals, and the
float constant ln(2*pi). -/
structure Prim where
  logQ : ℚ → ℚ
  sqrtQ : ℚ → ℚ
  lnFactQ : ℚ → ℚ
  ln2pi : ℚ

/-- A fixed concrete instantiation of the primitives, used to evaluate
the development on concrete inputs. -/
def P0 : Prim := { logQ := fun _ => 0, sqrtQ := fun _ => 1, lnFactQ := fun _ => 0, ln2pi := 2 }

namespace F

/-- IEEE negation. -/
def neg : F → F
  | nan => nan
  | inf => ninf
  | ninf => inf
  | num q => num (-q)

/-- IEEE addition: NaN propagates, inf + (-inf) is NaN. -/
def add : F → F → F
  | nan, _ => nan
  | _, nan => nan
  | inf, ninf => nan
  | inf, _ => inf
  | ninf, inf => nan
  | ninf, _ => ninf
  | num _, inf => inf
  | num _, ninf => ninf
  | num a, num b => num (a + b)

/-- IEEE subtraction. -/
def sub (a b : F) : F := add a (neg b)

/-- IEEE multiplication: NaN propagates, 0 * infinity is NaN. -/
def mul : F → F → F
  | nan, _ => nan
  | _, nan => nan
  | inf, inf => inf
  | inf, ninf => ninf
  | ninf, inf => ninf
  | ninf, ninf => inf
  | inf, num b => if b = 0 then nan else if 0 < b then inf else ninf
  | ninf, num b => if b = 0 then nan else if 0 < b then ninf else inf
  | num a, inf => if a = 0 then nan else if 0 < a then inf else ninf
  | num a, ninf => if a = 0 then nan else if 0 < a then ninf else inf
  | num a, num b => num (a * b)

/-- IEEE division: NaN propagates, inf/inf and 0/0 are NaN, finite/0 is
a signed infinity, finite/infinity is 0. -/
def div : F → F → F
  | nan, _ => nan
  | _, nan => nan
  | inf, inf => nan
  | inf, ninf => nan
  | ninf, inf => nan
  | ninf, ninf => nan
  | inf, num b => if b < 0 then ninf else inf
  | ninf, num b => if b < 0 then inf else ninf
  | num _, inf => num 0
  | num _, ninf => num 0
  | num a, num b =>
      if b = 0 then (if a = 0 then nan else if 0 < a then inf else ninf) else num (a / b)

/-- IEEE strict comparison: any comparison involving NaN is false. -/
def lt : F → F → Bool
  | nan, _ => false
  | _, nan => false
  | inf, _ => false
  | ninf, ninf => false
  | ninf, _ => true
  | num _, inf => true
  | num _, ninf => false
  | num a, num b => decide (a < b)

/-- IEEE equality test: NaN compares unequal to everything. -/
def eqv : F → F → Bool
  | nan, _ => false
  | _, nan => false
  | inf, inf => true
  | inf, _ => false
  | ninf, ninf => true
  | ninf, _ => false
  | num _, inf => false
  | num _, ninf => false
  | num a, num b => decide (a = b)

/-- IEEE non-strict comparison. -/
def le (a b : F) : Bool := lt a b || eqv a b

/-- np.isfinite: true exactly on finite values (not NaN, not infinite). -/
def isFinite : F → Bool
  | num _ => true
  | _ => false

/-- Natural logarithm on floats: log of a negative value or of NaN is
NaN, log 0 is -infinity, log(+infinity) is +infinity; on positive finite
values the graph engine's approximation is used. -/
def log (P : Prim) : F → F
  | nan => nan
  | inf => inf
  | ninf => nan
  | num q => if q < 0 then nan else if q = 0 then ninf else num (P.logQ q)

/-- Modelled from the spec: factln, the log-factorial ln(x!) used by the
Multinomial log-density (its implementation lives in
pymc3.distributions.dist_math, outside the provided sources).  On
nonnegative finite values it is the graph engine's approximation of
ln(Gamma(x+1)). -/
def lnFact (P : Prim) : F → F
  | nan => nan
  | inf => inf
  | ninf => nan
  | num q => if q < 0 then nan else num (P.lnFactQ q)

end F

/-- Sum of a list of floats. -/
def listSum (l : List F) : F := l.foldr F.add (F.num 0)

/-- Dot product of two float vectors (truncating to the shorter one). -/
def dotF (xs ys : List F) : F := listSum (List.zipWith F.mul xs ys)

/-- A numeric matrix: a list of rows. -/
abbrev Mat := List (List F)

/-- Main diagonal of a matrix. -/
def matDiag (M : Mat) : List F :=
  (List.range M.length).map (fun i => (M.getD i []).getD i F.nan)

/-- The matrix of the same shape with every entry 1 (the broadcast of the
scalar 1 against the matrix). -/
def onesLike (M : Mat) : Mat := M.map (fun r => r.map (fun _ => F.num 1))

/-- The matrix of the same shape with every entry NaN. -/
def nanLike (M : Mat) : Mat := M.map (fun r => r.map (fun _ => F.nan))

/-- The check at.all(diag > 0): every diagonal entry strictly positive
(false as soon as a diagonal entry is NaN). -/
def allDiagPos (M : Mat) : Bool := (matDiag M).all (fun d => F.lt (F.num 0) d)

/-- Off-diagonal entries of one row of a lower Cholesky factor, computed
sequentially from the already-computed rows prev: the entry below row j
is (A[i][j] - sum_k L[i][k]*L[j][k]) / L[j][j]. -/
def cholRowEntries (arow : List F) : List (List F) → List F → List F
  | [], acc => acc
  | prevRow :: rest, acc =>
      let j := acc.length
      let lij := F.div (F.sub (arow.getD j F.nan) (dotF acc prevRow)) (prevRow.getD j F.nan)
      cholRowEntries arow rest (acc ++ [lij])

/-- One row of the attempted lower Cholesky factorization: the
factorization of this row fails (like scipy.linalg.cholesky raising
LinAlgError for a matrix that is not positive definite) unless the
diagonal radicand A[i][i] - sum_k L[i][k]^2 is a strictly positive
finite number. -/
def cholRowF (P : Prim) (n : Nat) (prev : List (List F)) (arow : List F) : Option (List F) :=
  let off := cholRowEntries arow prev []
  let i := prev.length
  match F.sub (arow.getD i F.nan) (dotF off off) with
  | F.num q =>
      if 0 < q then some (off ++ [F.num (P.sqrtQ q)] ++ List.replicate (n - i - 1) (F.num 0))
      else none
  | _ => none

/-- Row-by-row attempted lower Cholesky factorization (Cholesky to
Banachiewicz ordering). -/
def cholAux (P : Prim) (n : Nat) : List (List F) → List (List F) → Option (List (List F))
  | [], prev => some prev
  | arow :: rest, prev =>
      match cholRowF P n prev arow with
      | some lrow => cholAux P n rest (prev ++ [lrow])
      | none => none

/-- Attempted lower Cholesky factorization of a square matrix: some
factor on success, none when the matrix is not numerically positive
definite. -/
def cholAttempt (P : Prim) (A : Mat) : Option Mat := cholAux P A.length A []

/-- Modelled from the spec and the source comment at multivariate.py
lines 68-72: the module-level op cholesky = Cholesky(lower=True,
on_error=nan).  A Cholesky factorization that never throws; on failure
it returns a matrix filled with the NaN sentinel instead of raising. -/
def cholesky (P : Prim) (A : Mat) : Mat :=
  match cholAttempt P A with
  | some L => L
  | none => nanLike A

/-- Modelled from the spec: the graph engine's Cholesky op with
on_error=raise, as constructed locally inside MatrixNormal.dist
(multivariate.py line 1657).  On a matrix that is not positive definite
it propagates the native linear-algebra exception, embedded here as the
error case of Except. -/
def choleskyRaise (P : Prim) (A : Mat) : Except String Mat :=
  match cholAttempt P A with
  | some L => Except.ok L
  | none => Except.error "Matrix is not positive definite"

/-- Forward substitution against a lower-triangular matrix, entry by
entry: x_i = (b_i - sum_j L[i][j]*x_j) / L[i][i]. -/
def solveLowerGo (L : Mat) : List F → List F → List F
  | [], acc => acc
  | bi :: rest, acc =>
      let i := acc.length
      let row := L.getD i []
      let xi := F.div (F.sub bi (dotF row acc)) (row.getD i F.nan)
      solveLowerGo L rest (acc ++ [xi])

/-- The graph engine's solve_lower_triangular for a vector right-hand
side. -/
def solve_lower (L : Mat) (b : List F) : List F := solveLowerGo L b []

/-- Transpose of a (rectangular) matrix. -/
def transposeM (M : Mat) : Mat :=
  (List.range (M.headD []).length).map (fun j => M.map (fun r => r.getD j F.nan))

/-- Backward substitution against an upper-triangular matrix, realized
as forward substitution on the row-and-column reversed system. -/
def solve_upper (U : Mat) (b : List F) : List F :=
  (solve_lower ((U.map List.reverse).reverse) b.reverse).reverse

/-- solve_lower applied column-wise to a matrix right-hand side. -/
def solveLowerMat (L B : Mat) : Mat := transposeM ((transposeM B).map (solve_lower L))

/-- solve_upper applied column-wise to a matrix right-hand side. -/
def solveUpperMat (U B : Mat) : Mat := transposeM ((transposeM B).map (solve_upper U))

/-- Matrix product. -/
def matMulF (A B : Mat) : Mat := A.map (fun ra => (transposeM B).map (fun cb => dotF ra cb))

/-- Elementwise matrix difference. -/
def matSub (A B : Mat) : Mat := List.zipWith (List.zipWith F.sub) A B

/-- Broadcast of one boolean condition tensor against a length-n
expression: a length-1 (scalar) condition is replicated, any other
condition is taken elementwise. -/
def bcastCond (n : Nat) (c : List Bool) : List Bool :=
  if c.length = 1 then List.replicate n (c.headD true) else c

/-- Modelled from the spec: alltrue_elemwise of
pymc3.distributions.dist_math (not among the provided sources) reduces
the conditions with elementwise logical AND. -/
def alltrue_elemwise (n : Nat) (conds : List (List Bool)) : List Bool :=
  conds.foldl (fun acc c => List.zipWith and acc (bcastCond n c)) (List.replicate n true)

/-- Modelled from the spec: alltrue_scalar of
pymc3.distributions.dist_math reduces every condition to a single
scalar truth value first. -/
def alltrue_scalar (conds : List (List Bool)) : Bool :=
  conds.all (fun c => c.all (fun b => b))

/-- Modelled from the spec: the bounding combinator bound(expr,
conditions, broadcast_conditions) of pymc3.distributions.dist_math (not
among the provided sources).  It returns expr where every condition
holds elementwise and negative infinity elsewhere; when
broadcast_conditions is false the conditions are reduced to one scalar
truth value first, so the result is either expr unchanged or negative
infinity broadcast over the whole expression, never an elementwise
mixture. -/
def bound (logp : List F) (conds : List (List Bool)) (broadcast_conditions : Bool) : List F :=
  if broadcast_conditions then
    List.zipWith (fun c v => if c then v else F.ninf) (alltrue_elemwise logp.length conds) logp
  else if alltrue_scalar conds then logp
  else logp.map (fun _ => F.ninf)

/-- The bounding combinator applied to a scalar log-density expression
with scalar conditions, expressed through the tensor-level bound. -/
def boundScalar (x : F) (conds : List Bool) (broadcast_conditions : Bool) : F :=
  (bound [x] (conds.map (fun c => [c])) broadcast_conditions).headD F.nan

/-- The positive-definiteness proxy of quaddist_chol (multivariate.py
line 130): ok = at.all(diag > 0) for the diagonal of the Cholesky
factor. -/
def quaddistCholOk (chol_mat : Mat) : Bool := allDiagPos chol_mat

/-- The matrix actually used by the triangular solve in quaddist_chol
(multivariate.py line 133): chol_cov = at.switch(ok, chol_mat, 1), i.e.
the factor itself when ok and the scalar 1 broadcast over the whole
matrix otherwise. -/
def quaddistCholUsed (chol_mat : Mat) : Mat :=
  if quaddistCholOk chol_mat then chol_mat else onesLike chol_mat

/-- quaddist_chol (multivariate.py lines 127-138) for a single residual
row delta: the quadratic form delta^T Sigma^-1 delta, half the
log-determinant of Sigma as the sum of logs of the factor's diagonal,
and the validity flag. -/
def quaddist_chol (P : Prim) (delta : List F) (chol_mat : Mat) : F × F × Bool :=
  let chol_cov := quaddistCholUsed chol_mat
  let delta_trans := solve_lower chol_cov delta
  let quaddist := listSum (delta_trans.map (fun x => F.mul x x))
  let logdet := listSum ((matDiag chol_mat).map (F.log P))
  (quaddist, logdet, quaddistCholOk chol_mat)

/-- quaddist_parse (multivariate.py lines 103-124) for a 1-D value in
the cov parameterization: center the value and feed the residual and
the never-throwing Cholesky factor of cov to quaddist_chol. -/
def quaddist_parse (P : Prim) (value mu : List F) (cov : Mat) : F × F × Bool :=
  quaddist_chol P (List.zipWith F.sub value mu) (cholesky P cov)

namespace MvNormal

/-- MvNormal.logp (multivariate.py lines 227-244) for a 1-D value:
bound(norm - 0.5*quaddist - logdet, ok) with
norm = -0.5*k*log(2*pi).  The result is an Except to record that no
native exception can escape the evaluation: the definition always
returns ok. -/
def logp (P : Prim) (value mu : List F) (cov : Mat) : Except String F :=
  let r := quaddist_parse P value mu cov
  let k : ℚ := (value.length : ℚ)
  let norm := F.num (-(1/2) * k * P.ln2pi)
  Except.ok (boundScalar (F.sub (F.sub norm (F.mul (F.num (1/2)) r.1)) r.2.1) [r.2.2] true)

end MvNormal

namespace Multinomial

/-- Modelled from the spec: the Multinomial log-density expression
ln(n!) + sum(-ln(value!) + value*ln(p)) (the helpers factln and logpow
live in pymc3.distributions.dist_math, outside the provided sources;
the spec gives the formula directly). -/
def logpExpr (P : Prim) (value : List F) (n : F) (p : List F) : F :=
  F.add (F.lnFact P n)
    (listSum (List.zipWith
      (fun v pj => F.add (F.neg (F.lnFact P v)) (F.mul v (F.log P pj))) value p))

/-- The condition list of Multinomial.logp (multivariate.py lines
515-523): all(value >= 0), sum(value) == n, all(p <= 1), sum(p) == 1,
n >= 0.  There is no lower bound on p in the source. -/
def logpConds (value : List F) (n : F) (p : List F) : List Bool :=
  [ value.all (fun v => F.le (F.num 0) v)
  , F.eqv (listSum value) n
  , p.all (fun x => F.le x (F.num 1))
  , F.eqv (listSum p) (F.num 1)
  , F.le (F.num 0) n ]

/-- Multinomial.logp (multivariate.py lines 501-523) for a 1-D value:
the bounded log-density with broadcast_conditions=False. -/
def logp (P : Prim) (value : List F) (n : F) (p : List F) : F :=
  boundScalar (logpExpr P value n p) (logpConds value n p) false

end Multinomial

namespace MatrixNormal

/-- MatrixNormal.logp (multivariate.py lines 1710-1748): trace term via
two sequential triangular solves against the row and column Cholesky
factors, log-determinants as sums of the factors' diagonal logs.  No
validity flag and no bounding combinator appear in the source. -/
def logp (P : Prim) (value mu rowchol colchol : Mat) : F :=
  let delta := matSub value mu
  let right_quaddist := solveLowerMat rowchol delta
  let quaddist1 := matMulF (transposeM right_quaddist) right_quaddist
  let quaddist2 := solveLowerMat colchol quaddist1
  let quaddist3 := solveUpperMat (transposeM colchol) quaddist2
  let trquaddist := listSum (matDiag quaddist3)
  let half_collogdet := listSum ((matDiag colchol).map (F.log P))
  let half_rowlogdet := listSum ((matDiag rowchol).map (F.log P))
  let m : ℚ := (rowchol.length : ℚ)
  let n : ℚ := (colchol.length : ℚ)
  F.sub
    (F.sub (F.sub (F.num (-(1/2) * m * n * P.ln2pi)) (F.mul (F.num (1/2)) trquaddist))
      (F.mul (F.num m) half_collogdet))
    (F.mul (F.num n) half_rowlogdet)

/-- Evaluation of the MatrixNormal log-density when row and column
covariances are supplied: MatrixNormal.dist (multivariate.py lines
1645-1708) factorizes them with the locally constructed
Cholesky(lower=True, on_error=raise) op, so evaluating the density at
a covariance that is not positive definite propagates the native
exception (the error case), unlike the quadratic-form utility. -/
def logpEval (P : Prim) (value mu rowcov colcov : Mat) : Except String F :=
  match choleskyRaise P rowcov with
  | Except.error e => Except.error e
  | Except.ok rowchol =>
      match choleskyRaise P colcov with
      | Except.error e => Except.error e
      | Except.ok colchol => Except.ok (logp P value mu rowchol colchol)

end MatrixNormal

/-- metrop_select (arraystep.py lines 289-312): accept the proposed
sample q exactly when np.isfinite(mr) and np.log(uniform()) < mr, and
keep the current sample q0 otherwise; the second component records
acceptance.  The fresh uniform(0,1) draw is passed explicitly as the
rational u. -/
def metrop_select {α : Type} (P : Prim) (mr : F) (q q0 : α) (u : ℚ) : α × Bool :=
  if F.isFinite mr && F.lt (F.log P (F.num u)) mr then (q, true) else (q0, false)

/-- A numeric array value of a point: a shape together with the
row-major data (rationals stand for the exact bit patterns, so equality
of NdArr values is the bit-for-bit equality of the claim). -/
structure NdArr where
  shape : List Nat
  data : List ℚ
deriving DecidableEq

/-- A point: a mapping from variable name to current numeric value,
as an association list. -/
abbrev Point := List (String × NdArr)

/-- Lookup of a variable in a point. -/
def plookup : Point → String → Option NdArr
  | [], _ => none
  | (k, a) :: rest, n => if k = n then some a else plookup rest n

/-- Update (or insert) of a variable in a point. -/
def pset : Point → String → NdArr → Point
  | [], n, a => [(n, a)]
  | (k, v) :: rest, n, a => if k = n then (n, a) :: rest else (k, v) :: pset rest n a

/-- RaveledVars (pymc3.blocking): the flat concatenated data together
with the shape metadata captured at flatten time. -/
structure RaveledVars where
  vals : List ℚ
  point_map_info : List (String × List Nat)
deriving DecidableEq

namespace DictToArrayBijection

/-- Modelled from the spec: DictToArrayBijection.map of pymc3.blocking
(not among the provided sources) flattens the subset of the point for
the declared variables into one numeric vector, recording the
shape-and-order metadata needed to invert exactly. -/
def map (vars : List String) (point : Point) : RaveledVars :=
  { vals := (vars.map (fun v => ((plookup point v).getD ⟨[], []⟩).data)).flatten
  , point_map_info := vars.map (fun v => (v, ((plookup point v).getD ⟨[], []⟩).shape)) }

/-- Splitting of the flat vector back into per-variable chunks guided by
the recorded shape metadata, writing each chunk into the result point. -/
def rmapGo : List (String × List Nat) → List ℚ → Point → Point
  | [], _, res => res
  | (name, shape) :: rest, vals, res =>
      rmapGo rest (vals.drop shape.prod) (pset res name ⟨shape, vals.take shape.prod⟩)

/-- Modelled from the spec: DictToArrayBijection.rmap of pymc3.blocking
unflattens a raveled vector back into a full point, leaving untouched
variables copied from the start point unchanged. -/
def rmap (a : RaveledVars) (start : Point) : Point :=
  rmapGo a.point_map_info a.vals start

end DictToArrayBijection

namespace ArrayStep

/-- ArrayStep.step (arraystep.py lines 149-172), specialized to the
branch in which astep returns a plain vector (the mapping is assumed to
have stayed the same): flatten the declared variables, apply the
variable-specific update rule astep to the flat vector, and unflatten
the result into the input point. -/
def step (vars : List String) (astep : List ℚ → List ℚ) (point : Point) : Point :=
  let apoint := DictToArrayBijection.map vars point
  DictToArrayBijection.rmap ⟨astep apoint.vals, apoint.point_map_info⟩ point

end ArrayStep

/-- A constructed step method: either a single (possibly blocked) step
instance bound to a list of variables, or — modelled from the spec —
the ordered composite CompoundStep of pymc3.step_methods.compound (not
among the provided sources) holding one sub-step per variable. -/
inductive StepInstance (V : Type) where
  | single : List V → Bool → StepInstance V
  | compound : List (StepInstance V) → StepInstance V

/-- The inputs of BlockedStep.__new__ (arraystep.py lines 56-99): the
explicitly passed variable list if any (positional or keyword), the
explicitly passed blocked flag if any, the class-level default_blocked
attribute, and the model's default variable set model.value_vars. -/
structure NewArgs (V : Type) where
  varsArg : Option (List V)
  blockedArg : Option Bool
  defaultBlocked : Bool
  modelValueVars : List V

namespace BlockedStep

/-- BlockedStep.__new__ (arraystep.py lines 56-99): resolve the blocked
flag from the keyword or the class default, resolve the variable list
from the argument or the model, raise ValueError on an empty list, and
either fan out into a CompoundStep of one single-variable instance per
variable (not blocked, more than one variable) or build one blocked
instance. -/
def new {V : Type} (a : NewArgs V) : Except String (StepInstance V) :=
  let blocked := a.blockedArg.getD a.defaultBlocked
  let vars := a.varsArg.getD a.modelValueVars
  if vars.length = 0 then Except.error "No free random variables to sample."
  else if !blocked && 1 < vars.length then
    Except.ok (StepInstance.compound (vars.map (fun v => StepInstance.single [v] blocked)))
  else Except.ok (StepInstance.single vars blocked)

end BlockedStep

/-- The reading of the claim that only the diagonal of the factor is
replaced by 1 before the triangular solve: this definition follows the
claim's words, to be compared with quaddistCholUsed from the source. -/
def diagReplacedByOne (M : Mat) : Mat :=
  (List.range M.length).map (fun i =>
    (List.range ((M.getD i []).length)).map (fun j =>
      if i = j then F.num 1 else (M.getD i []).getD j F.nan))

/-- A concrete point with a scalar, a vector, a multi-dimensional
variable and one undeclared variable, used to evaluate the array
bijection on every shape combination of the claim. -/
def c5pt : Point :=
  [("a", ⟨[], [5]⟩), ("b", ⟨[2], [1, 2]⟩), ("c", ⟨[2, 2], [1, 2, 3, 4]⟩), ("d", ⟨[], [9]⟩)]

/-- The all-NaN factor returned by the never-throwing Cholesky op on a
2x2 matrix that is not positive definite. -/
def nanFactor2 : Mat := [[F.nan, F.nan], [F.nan, F.nan]]

/-- The concrete valid Multinomial probability vector p = [0.2, 0.3,
0.5] named by the claim about the support of the log-density. -/
def pfix3 : List F := [F.num (1/5), F.num (3/10), F.num (1/2)]

/-! ## Helper lemmas -/

theorem boundScalar_one (x : F) (ok : Bool) :
    boundScalar x [ok] true = if ok then x else F.ninf := by
  cases ok <;> rfl

theorem all_map_singleton (conds : List Bool) :
    (List.map (fun c => [c]) conds).all (fun c => c.all fun b => b) = conds.all (fun b => b) := by
  induction conds with
  | nil => rfl
  | cons hd tl ih => simp [List.all_cons, ih]

theorem boundScalar_scalar_conds (x : F) (conds : List Bool) :
    boundScalar x conds false = if conds.all (fun b => b) then x else F.ninf := by
  cases h : conds.all (fun b => b) <;>
    simp [boundScalar, bound, alltrue_scalar, all_map_singleton, h]

theorem mvnormal_ninf (P : Prim) (value mu : List F) (cov : Mat)
    (h : allDiagPos (cholesky P cov) = false) :
    MvNormal.logp P value mu cov = Except.ok F.ninf := by
  simp [MvNormal.logp, quaddist_parse, quaddist_chol, quaddistCholOk, boundScalar_one, h]

theorem cholAttempt_nonpos_first (P : Prim) (r0 : List F) (rest : List (List F)) (q : ℚ)
    (h0 : r0.getD 0 F.nan = F.num q) (hq : q ≤ 0) :
    cholAttempt P (r0 :: rest) = none := by
  have h0' : r0[0]?.getD F.nan = F.num q := by simpa [List.getD] using h0
  simp [cholAttempt, cholAux, cholRowF, cholRowEntries, h0', dotF, listSum,
    F.sub, F.neg, F.add, not_lt.mpr hq]

theorem cholesky_nonpos_first (P : Prim) (r0 : List F) (rest : List (List F)) (q : ℚ)
    (h0 : r0.getD 0 F.nan = F.num q) (hq : q ≤ 0) :
    cholesky P (r0 :: rest) = nanLike (r0 :: rest) := by
  simp [cholesky, cholAttempt_nonpos_first P r0 rest q h0 hq]

theorem allDiagPos_nanLike_cons (r0 : List F) (rest : List (List F)) :
    allDiagPos (nanLike (r0 :: rest)) = false := by
  rw [allDiagPos, List.all_eq_false]
  refine ⟨F.nan, ?_, by simp [F.lt]⟩
  rw [matDiag]
  refine List.mem_map.mpr ⟨0, by simp [nanLike], ?_⟩
  cases r0 <;> rfl

/-! ## Claim C1 -/

/-- C1, counterexample: evaluating the MatrixNormal log-density at a row
covariance that is not positive definite propagates the native
linear-algebra exception instead of producing a negative-infinity
sentinel, because MatrixNormal.dist builds its Cholesky op with
on_error=raise and MatrixNormal.logp applies no bounding combinator. -/
theorem c1_counterexample :
    MatrixNormal.logpEval P0 [[F.num 0]] [[F.num 0]] [[F.num (-1)]] [[F.num 1]]
      = Except.error "Matrix is not positive definite"
    ∧ ∀ r : F,
        MatrixNormal.logpEval P0 [[F.num 0]] [[F.num 0]] [[F.num (-1)]] [[F.num 1]]
          ≠ Except.ok r := by
  have hc : cholAttempt P0 [[F.num (-1)]] = none :=
    cholAttempt_nonpos_first P0 [F.num (-1)] [] (-1) rfl (by norm_num)
  have he : MatrixNormal.logpEval P0 [[F.num 0]] [[F.num 0]] [[F.num (-1)]] [[F.num 1]]
      = Except.error "Matrix is not positive definite" := by
    simp [MatrixNormal.logpEval, choleskyRaise, hc]
  exact ⟨he, fun r h => by rw [he] at h; exact Except.noConfusion h⟩

/-- C1, amended: for the distribution log-densities routed through the
quadratic-form utility and the bounding combinator (represented by
MvNormal), evaluation never raises a native exception and numerical
invalidity is converted to the negative-infinity sentinel; MatrixNormal
is excluded, since its dist builds a raising Cholesky op and its logp
has no bound (see the counterexample). -/
theorem c1_amended (P : Prim) (value mu : List F) (cov : Mat) :
    (∃ r : F, MvNormal.logp P value mu cov = Except.ok r)
    ∧ (allDiagPos (cholesky P cov) = false →
        MvNormal.logp P value mu cov = Except.ok F.ninf) := by
  exact ⟨⟨_, rfl⟩, fun h => mvnormal_ninf P value mu cov h⟩

/-- C1, witness: the amended theorem evaluated at a concrete matrix that
is not positive definite. -/
theorem c1_witness :
    MvNormal.logp P0 [F.num 0] [F.num 0] [[F.num (-1)]] = Except.ok F.ninf
    ∧ allDiagPos (cholesky P0 [[F.num (-1)]]) = false := by
  have h : allDiagPos (cholesky P0 [[F.num (-1)]]) = false := by
    rw [cholesky_nonpos_first P0 [F.num (-1)] [] (-1) rfl (by norm_num)]
    exact allDiagPos_nanLike_cons [F.num (-1)] []
  exact ⟨(c1_amended P0 [F.num 0] [F.num 0] [[F.num (-1)]]).2 h, h⟩

/-! ## Claim C2 -/

/-- C2: for every matrix supplied as cov whose Cholesky factor does not
have an all-strictly-positive diagonal, and every value and mu,
MvNormal.logp returns negative infinity (the ok result of the total
evaluation) rather than raising an exception. -/
theorem c2_theorem (P : Prim) (value mu : List F) (cov : Mat)
    (h : allDiagPos (cholesky P cov) = false) :
    MvNormal.logp P value mu cov = Except.ok F.ninf :=
  mvnormal_ninf P value mu cov h

/-- C2, witness: the theorem evaluated at a concrete 2x2 matrix that is
not positive definite. -/
theorem c2_witness :
    allDiagPos (cholesky P0 [[F.num (-4), F.num 0], [F.num 0, F.num 1]]) = false
    ∧ MvNormal.logp P0 [F.num 1, F.num 2] [F.num 0, F.num 0]
        [[F.num (-4), F.num 0], [F.num 0, F.num 1]] = Except.ok F.ninf := by
  have h : allDiagPos (cholesky P0 [[F.num (-4), F.num 0], [F.num 0, F.num 1]]) = false := by
    rw [cholesky_nonpos_first P0 [F.num (-4), F.num 0] [[F.num 0, F.num 1]] (-4) rfl
      (by norm_num)]
    exact allDiagPos_nanLike_cons [F.num (-4), F.num 0] [[F.num 0, F.num 1]]
  exact ⟨h, c2_theorem P0 [F.num 1, F.num 2] [F.num 0, F.num 0]
    [[F.num (-4), F.num 0], [F.num 0, F.num 1]] h⟩

/-! ## Claim C3 -/

/-- C3, counterexample: metrop_select with a positive-infinite log
acceptance ratio returns the current sample with accepted=False, not
the proposed sample, because np.isfinite(+inf) is false. -/
theorem c3_counterexample :
    metrop_select P0 F.inf (1 : ℚ) (0 : ℚ) (1/2) = ((0 : ℚ), false)
    ∧ metrop_select P0 F.inf (1 : ℚ) (0 : ℚ) (1/2) ≠ ((1 : ℚ), true) := by
  decide

/-- C3, amended: for every proposed value q, current value q0 and
uniform draw, metrop_select(log_ratio=+infinity, q, q0) always returns
(q0, False): the isfinite guard rejects an infinite log ratio before
the uniform draw is compared. -/
theorem c3_amended {α : Type} (P : Prim) (q q0 : α) (u : ℚ) :
    metrop_select P F.inf q q0 u = (q0, false) := by
  simp [metrop_select, F.isFinite]

/-! ## Claim C8 -/

/-- C8, counterexample: on the all-NaN factor produced by a failed
factorization the matrix actually used by the triangular solve is the
scalar 1 broadcast over the whole matrix, not the factor with only its
diagonal replaced by 1. -/
theorem c8_counterexample :
    quaddistCholOk nanFactor2 = false
    ∧ quaddistCholUsed nanFactor2 ≠ diagReplacedByOne nanFactor2 := by
  decide

/-- C8, amended: the validity flag returned by quaddist_chol is true
exactly when all diagonal entries of the supplied Cholesky factor are
strictly positive; and when the flag is false, the matrix used in the
triangular solve is the factor with every entry (not only the diagonal)
replaced by 1, so the solve produces a flagged-invalid numeric result
instead of failing. -/
theorem c8_amended (P : Prim) (delta : List F) (chol_mat : Mat) :
    ((quaddist_chol P delta chol_mat).2.2 = (matDiag chol_mat).all (fun d => F.lt (F.num 0) d))
    ∧ (allDiagPos chol_mat = false →
        quaddistCholUsed chol_mat = onesLike chol_mat
        ∧ (quaddist_chol P delta chol_mat).1
            = listSum ((solve_lower (onesLike chol_mat) delta).map (fun x => F.mul x x))) := by
  refine ⟨rfl, fun h => ⟨?_, ?_⟩⟩
  · simp [quaddistCholUsed, quaddistCholOk, h]
  · simp [quaddist_chol, quaddistCholUsed, quaddistCholOk, h]

/-- C8, witness: the amended theorem evaluated at the all-NaN factor. -/
theorem c8_witness :
    quaddistCholUsed nanFactor2 = onesLike nanFactor2
    ∧ (quaddist_chol P0 [F.num 3, F.num 4] nanFactor2).2.2 = false := by
  exact ⟨((c8_amended P0 [F.num 3, F.num 4] nanFactor2).2 (by decide)).1, by decide⟩

/-! ## Claim C4 -/

/-- C4: metrop_select returns (proposed, True) exactly when the log
ratio is finite and the logarithm of the fresh uniform draw is below
it; in every other case, including a NaN and a negative-infinite log
ratio, it returns (current, False). -/
theorem c4_theorem {α : Type} (P : Prim) (mr : F) (q q0 : α) (u : ℚ) :
    (metrop_select P mr q q0 u = (q, true)
      ↔ (F.isFinite mr = true ∧ F.lt (F.log P (F.num u)) mr = true))
    ∧ (metrop_select P mr q q0 u = (q, true) ∨ metrop_select P mr q q0 u = (q0, false))
    ∧ metrop_select P F.nan q q0 u = (q0, false)
    ∧ metrop_select P F.ninf q q0 u = (q0, false) := by
  have hnan : metrop_select P F.nan q q0 u = (q0, false) := by
    simp [metrop_select, F.isFinite]
  have hninf : metrop_select P F.ninf q q0 u = (q0, false) := by
    simp [metrop_select, F.isFinite, F.lt]
  cases hb : (F.isFinite mr && F.lt (F.log P (F.num u)) mr) with
  | true =>
      have hsel : metrop_select P mr q q0 u = (q, true) := by simp [metrop_select, hb]
      rw [Bool.and_eq_true] at hb
      exact ⟨⟨fun _ => hb, fun _ => hsel⟩, Or.inl hsel, hnan, hninf⟩
  | false =>
      have hsel : metrop_select P mr q q0 u = (q0, false) := by simp [metrop_select, hb]
      refine ⟨⟨fun h => ?_, fun h => ?_⟩, Or.inr hsel, hnan, hninf⟩
      · rw [hsel] at h
        exact absurd (congrArg Prod.snd h) (by simp)
      · rw [h.1, h.2] at hb
        simp at hb

/-- C4, witness: the theorem applied at a finite log ratio with a draw
whose logarithm lies below it, and at NaN and negative infinity. -/
theorem c4_witness :
    metrop_select P0 (F.num 1) (1 : ℚ) (0 : ℚ) (1/2) = ((1 : ℚ), true)
    ∧ metrop_select P0 F.nan (1 : ℚ) (0 : ℚ) (1/2) = ((0 : ℚ), false)
    ∧ metrop_select P0 F.ninf (1 : ℚ) (0 : ℚ) (1/2) = ((0 : ℚ), false) := by
  have h := c4_theorem P0 (F.num 1) (1 : ℚ) (0 : ℚ) (1/2)
  refine ⟨h.1.mpr ⟨rfl, ?_⟩, h.2.2.1, h.2.2.2⟩
  show F.lt (if (1/2 : ℚ) < 0 then F.nan else if (1/2 : ℚ) = 0 then F.ninf
    else F.num (P0.logQ (1/2))) (F.num 1) = true
  rw [if_neg (by norm_num), if_neg (by norm_num)]
  show decide ((0:ℚ) < 1) = true
  decide

/-! ## Claims C9 and C10 -/

/-- C9: constructing a step method with blocked=False over more than one
variable yields the ordered composite of one independently constructed
single-variable instance per variable, in the order of the variable
list, not a single blocked instance. -/
theorem c9_theorem {V : Type} (a : NewArgs V) (hb : a.blockedArg = some false)
    (hlen : 1 < (a.varsArg.getD a.modelValueVars).length) :
    BlockedStep.new a
      = Except.ok (StepInstance.compound
          ((a.varsArg.getD a.modelValueVars).map (fun v => StepInstance.single [v] false))) := by
  have h0 : ¬ ((a.varsArg.getD a.modelValueVars).length = 0) := by omega
  simp [BlockedStep.new, hb, h0, hlen]

/-- C9, witness: two variables, blocked explicitly false. -/
theorem c9_witness :
    BlockedStep.new ⟨some [(1 : ℕ), 2], some false, true, []⟩
      = Except.ok (StepInstance.compound
          [StepInstance.single [1] false, StepInstance.single [2] false]) :=
  c9_theorem ⟨some [(1 : ℕ), 2], some false, true, []⟩ rfl (by decide)

/-- C10: constructing any step method with an empty variable list —
whether passed explicitly or obtained as the model's default variable
set — yields the ValueError "No free random variables to sample."
before any step instance is created, for every blocked flag and class
default. -/
theorem c10_theorem {V : Type} (a : NewArgs V)
    (h : a.varsArg = some [] ∨ (a.varsArg = none ∧ a.modelValueVars = [])) :
    BlockedStep.new a = Except.error "No free random variables to sample." := by
  rcases h with h1 | ⟨h1, h2⟩
  · simp [BlockedStep.new, h1]
  · simp [BlockedStep.new, h1, h2]

/-- C10, witness: the theorem applied once with an explicit empty list
and once with the model's default variable set empty. -/
theorem c10_witness :
    BlockedStep.new ⟨some ([] : List ℕ), some false, true, [1]⟩
      = Except.error "No free random variables to sample."
    ∧ BlockedStep.new ⟨none, none, true, ([] : List ℕ)⟩
      = Except.error "No free random variables to sample." :=
  ⟨c10_theorem ⟨some ([] : List ℕ), some false, true, [1]⟩ (Or.inl rfl),
   c10_theorem ⟨none, none, true, ([] : List ℕ)⟩ (Or.inr ⟨rfl, rfl⟩)⟩

/-! ## Claim C6 -/

theorem alltrue_elemwise_single (n : Nat) (b : Bool) :
    alltrue_elemwise n [[b]] = List.replicate n b := by
  have hz : List.zipWith and (List.replicate n true) (List.replicate n b)
      = List.replicate n b := by
    induction n with
    | zero => rfl
    | succ m ih => simp [List.replicate_succ, ih]
  simp [alltrue_elemwise, bcastCond, hz]

theorem zipWith_mask_true (x : List F) :
    List.zipWith (fun c v => if c then v else F.ninf) (List.replicate x.length true) x = x := by
  induction x with
  | nil => rfl
  | cons h t ih => simp [List.replicate_succ, ih]

theorem zipWith_mask_false (x : List F) :
    List.zipWith (fun c v => if c then v else F.ninf) (List.replicate x.length false) x
      = x.map (fun _ => F.ninf) := by
  induction x with
  | nil => rfl
  | cons h t ih => simp [List.replicate_succ, ih]

theorem alltrue_scalar_two (c1 c2 : List Bool) :
    alltrue_scalar [c1, c2] = (c1.all (fun b => b) && c2.all (fun b => b)) := by
  simp [alltrue_scalar]

/-- C6: bound(x, True) returns x unchanged for finite x; bound(x, False)
returns negative infinity everywhere, matching the shape of x; and with
broadcast_conditions=False, bound(x, cond1, cond2) returns either x or
negative infinity over the whole expression depending only on whether
both conditions are fully true — never a partial elementwise mask. -/
theorem c6_theorem (x : List F) (c1 c2 : List Bool)
    (_hx : ∀ v ∈ x, F.isFinite v = true) :
    bound x [[true]] true = x
    ∧ bound x [[false]] true = x.map (fun _ => F.ninf)
    ∧ ((c1.all (fun b => b) = true ∧ c2.all (fun b => b) = true) →
        bound x [c1, c2] false = x)
    ∧ ((c1.all (fun b => b) = false ∨ c2.all (fun b => b) = false) →
        bound x [c1, c2] false = x.map (fun _ => F.ninf))
    ∧ (bound x [c1, c2] false = x ∨ bound x [c1, c2] false = x.map (fun _ => F.ninf)) := by
  have h1 : bound x [[true]] true = x := by
    simp [bound, alltrue_elemwise_single, zipWith_mask_true]
  have h2 : bound x [[false]] true = x.map (fun _ => F.ninf) := by
    simp [bound, alltrue_elemwise_single, zipWith_mask_false]
  have h3 : bound x [c1, c2] false
      = if (c1.all (fun b => b) && c2.all (fun b => b)) then x else x.map (fun _ => F.ninf) := by
    simp [bound, alltrue_scalar_two]
  refine ⟨h1, h2, fun hc => ?_, fun hc => ?_, ?_⟩
  · rw [h3, if_pos (by rw [hc.1, hc.2]; rfl)]
  · rw [h3, if_neg ?_]
    rcases hc with hc | hc <;> simp [hc]
  · rw [h3]
    by_cases hc : (c1.all (fun b => b) && c2.all (fun b => b)) = true
    · rw [if_pos hc]; exact Or.inl rfl
    · rw [if_neg hc]; exact Or.inr rfl

/-- C6, witness: the theorem applied to a concrete finite tensor, a pair
of fully true conditions and a pair with one partially false
condition. -/
theorem c6_witness :
    bound [F.num 1, F.num 2] [[true]] true = [F.num 1, F.num 2]
    ∧ bound [F.num 1, F.num 2] [[false]] true = [F.ninf, F.ninf]
    ∧ bound [F.num 1, F.num 2] [[true, true], [true, false]] false = [F.ninf, F.ninf] := by
  have h := c6_theorem [F.num 1, F.num 2] [true, true] [true, false] (by decide)
  exact ⟨h.1, h.2.1, h.2.2.2.1 (Or.inr (by decide))⟩

/-! ## Claim C5 -/

theorem plookup_pset (p : Point) (n : String) (a : NdArr) (m : String) :
    plookup (pset p n a) m = if n = m then some a else plookup p m := by
  induction p with
  | nil =>
      by_cases h : n = m <;> simp [pset, plookup, h]
  | cons hd tl ih =>
      obtain ⟨k, v⟩ := hd
      by_cases hk : k = n
      · subst hk
        by_cases h : k = m <;> simp [pset, plookup, h]
      · by_cases h : n = m
        · subst h
          have hk2 : ¬ (k = n) := hk
          simp [pset, plookup, hk, hk2, ih]
        · simp [pset, plookup, hk, h, ih]

theorem rmapGo_untouched (info : List (String × List Nat)) (vals : List ℚ) (st : Point)
    (v : String) (hv : v ∉ info.map Prod.fst) :
    plookup (DictToArrayBijection.rmapGo info vals st) v = plookup st v := by
  induction info generalizing vals st with
  | nil => rfl
  | cons hd tl ih =>
      obtain ⟨name, shape⟩ := hd
      simp only [List.map_cons, List.mem_cons] at hv
      push_neg at hv
      rw [DictToArrayBijection.rmapGo, ih _ _ hv.2, plookup_pset,
        if_neg (fun h => hv.1 h.symm)]

theorem bij_info_names (vars : List String) (point : Point) :
    (DictToArrayBijection.map vars point).point_map_info.map Prod.fst = vars := by
  simp only [DictToArrayBijection.map, List.map_map]
  exact List.map_id _

theorem rmap_map_roundtrip (vars : List String) (point : Point)
    (hwf : ∀ v ∈ vars, ∃ a, plookup point v = some a ∧ a.data.length = a.shape.prod)
    (st : Point) :
    ∀ v ∈ vars,
      plookup (DictToArrayBijection.rmap (DictToArrayBijection.map vars point) st) v
        = plookup point v := by
  induction vars generalizing st with
  | nil => intro v hv; cases hv
  | cons w rest ih =>
      intro v hv
      obtain ⟨a, ha, hlen⟩ := hwf w (List.mem_cons_self w rest)
      have hwfr : ∀ x ∈ rest, ∃ b, plookup point x = some b ∧ b.data.length = b.shape.prod :=
        fun x hx => hwf x (List.mem_cons_of_mem w hx)
      have hmap : DictToArrayBijection.rmap (DictToArrayBijection.map (w :: rest) point) st
          = DictToArrayBijection.rmap (DictToArrayBijection.map rest point) (pset st w a) := by
        simp only [DictToArrayBijection.map, DictToArrayBijection.rmap, List.map_cons,
          List.flatten_cons, DictToArrayBijection.rmapGo, ha, Option.getD_some]
        rw [List.take_left' hlen, List.drop_left' hlen]
      rw [hmap]
      rcases List.mem_cons.mp hv with rfl | hv2
      · by_cases hvr : v ∈ rest
        · exact ih hwfr (pset st v a) v hvr
        · rw [DictToArrayBijection.rmap,
            rmapGo_untouched _ _ _ v (by rwa [bij_info_names]),
            plookup_pset, if_pos rfl, ha]
      · exact ih hwfr (pset st w a) v hv2

/-- C5: flattening the point restricted to the declared variable list
through the array bijection and immediately unflattening yields exactly
(structural, bit-for-bit equality) the original values, for every shape
recorded in the point; and the point returned by an array step agrees
with the input point on every variable not in the declared list. -/
theorem c5_theorem (vars : List String) (point st : Point)
    (hwf : ∀ v ∈ vars, ∃ a, plookup point v = some a ∧ a.data.length = a.shape.prod) :
    (∀ v ∈ vars,
      plookup (DictToArrayBijection.rmap (DictToArrayBijection.map vars point) st) v
        = plookup point v)
    ∧ (∀ (f : List ℚ → List ℚ) (v : String), v ∉ vars →
        plookup (ArrayStep.step vars f point) v = plookup point v) := by
  refine ⟨rmap_map_roundtrip vars point hwf st, fun f v hv => ?_⟩
  simp only [ArrayStep.step, DictToArrayBijection.rmap]
  exact rmapGo_untouched _ _ _ v (by rwa [bij_info_names])

/-- C5, witness: the theorem applied to a concrete point holding a
scalar, a vector and a multi-dimensional array, with one undeclared
variable left untouched by a step. -/
theorem c5_witness :
    plookup (DictToArrayBijection.rmap (DictToArrayBijection.map ["a", "b", "c"] c5pt) c5pt) "c"
      = plookup c5pt "c"
    ∧ plookup (ArrayStep.step ["a", "b", "c"] (fun l => l.map (fun x => x + 1)) c5pt) "d"
      = plookup c5pt "d" := by
  have h := c5_theorem ["a", "b", "c"] c5pt c5pt ?hwf
  · exact ⟨h.1 "c" (by decide), h.2 (fun l => l.map (fun x => x + 1)) "d" (by decide)⟩
  case hwf =>
    intro v hv
    fin_cases hv
    · exact ⟨⟨[], [5]⟩, rfl, rfl⟩
    · exact ⟨⟨[2], [1, 2]⟩, rfl, rfl⟩
    · exact ⟨⟨[2, 2], [1, 2, 3, 4]⟩, rfl, rfl⟩

/-! ## Claim C7 -/

theorem eqv_num_right {x : F} {r : ℚ} (h : F.eqv x (F.num r) = true) : x = F.num r := by
  cases x with
  | nan => simp [F.eqv] at h
  | inf => simp [F.eqv] at h
  | ninf => simp [F.eqv] at h
  | num a => simp [F.eqv] at h; exact congrArg F.num h

theorem add_eq_num_parts {x y : F} {s : ℚ} (h : F.add x y = F.num s) :
    ∃ p q, x = F.num p ∧ y = F.num q ∧ p + q = s := by
  cases x <;> cases y <;> simp [F.add] at h ⊢
  exact h

theorem le_zero_num_iff {q : ℚ} : F.le (F.num 0) (F.num q) = true ↔ 0 ≤ q := by
  simp [F.le, F.lt, F.eqv]
  exact (le_iff_lt_or_eq).symm

theorem logpExpr_num_finite (P : Prim) (qa qb qc : ℚ)
    (ha : 0 ≤ qa) (hb : 0 ≤ qb) (hc : 0 ≤ qc) :
    F.isFinite (Multinomial.logpExpr P [F.num qa, F.num qb, F.num qc] (F.num 6) pfix3)
      = true := by
  norm_num [Multinomial.logpExpr, pfix3, listSum, F.lnFact, F.log, F.mul, F.add, F.neg,
    F.isFinite, not_lt.mpr ha, not_lt.mpr hb, not_lt.mpr hc]

/-- C7, amended: Multinomial.logp equals ln(n!) + sum(-ln(value!) +
value*ln(p)) whenever the five conditions actually checked by the source
(value >= 0, sum(value) == n, p <= 1, sum(p) == 1, n >= 0) all hold, and
equals negative infinity whenever any of them fails; the bound does NOT
include the lower constraint p >= 0 (see the counterexample).  For the
fixed valid parameters n = 6, p = [0.2, 0.3, 0.5], the log-density is
finite exactly on the support, namely value >= 0 and sum(value) = 6. -/
theorem c7_amended (P : Prim) (value : List F) (n : F) (p : List F) :
    ((Multinomial.logpConds value n p).all (fun b => b) = true →
      Multinomial.logp P value n p = Multinomial.logpExpr P value n p)
    ∧ ((Multinomial.logpConds value n p).all (fun b => b) = false →
      Multinomial.logp P value n p = F.ninf)
    ∧ (value.length = 3 →
        (F.isFinite (Multinomial.logp P value (F.num 6) pfix3) = true
          ↔ (value.all (fun v => F.le (F.num 0) v) = true
             ∧ F.eqv (listSum value) (F.num 6) = true))) := by
  refine ⟨fun h => ?_, fun h => ?_, fun hlen => ?_⟩
  · rw [Multinomial.logp, boundScalar_scalar_conds, if_pos h]
  · rw [Multinomial.logp, boundScalar_scalar_conds, if_neg (by simp [h])]
  · obtain ⟨a, b, c, rfl⟩ := List.length_eq_three.mp hlen
    have hc3 : pfix3.all (fun x => F.le x (F.num 1)) = true := by
      norm_num [pfix3, F.le, F.lt, F.eqv]
    have hc4 : F.eqv (listSum pfix3) (F.num 1) = true := by
      norm_num [pfix3, listSum, F.add, F.eqv]
    have hc5 : F.le (F.num 0) (F.num 6) = true := by
      norm_num [F.le, F.lt, F.eqv]
    have hcondsEq : (Multinomial.logpConds [a, b, c] (F.num 6) pfix3).all (fun x => x)
        = ([a, b, c].all (fun v => F.le (F.num 0) v)
            && F.eqv (listSum [a, b, c]) (F.num 6)) := by
      simp [Multinomial.logpConds, hc3, hc4, hc5]
    rw [Multinomial.logp, boundScalar_scalar_conds, hcondsEq]
    cases hB : ([a, b, c].all (fun v => F.le (F.num 0) v)
        && F.eqv (listSum [a, b, c]) (F.num 6)) with
    | false =>
        have hnc : ¬([a, b, c].all (fun v => F.le (F.num 0) v) = true
            ∧ F.eqv (listSum [a, b, c]) (F.num 6) = true) := by
          rintro ⟨h1, h2⟩
          rw [h1, h2] at hB
          simp at hB
        rw [if_neg (by simp [hB])]
        constructor
        · intro hfin
          simp [F.isFinite] at hfin
        · intro hand
          exact absurd hand hnc
    | true =>
        have h12 : ([a, b, c].all (fun v => (F.num 0).le v)) = true
            ∧ (listSum [a, b, c]).eqv (F.num 6) = true := by simpa using hB
        obtain ⟨h1, h2⟩ := h12
        have hsum3 : F.add a (F.add b (F.add c (F.num 0))) = F.num 6 := eqv_num_right h2
        obtain ⟨qa, s1, ha1, hb1, _⟩ := add_eq_num_parts hsum3
        obtain ⟨qb, s2, hb2, hc2, _⟩ := add_eq_num_parts hb1
        obtain ⟨qc, s3, hcc, _, _⟩ := add_eq_num_parts hc2
        subst ha1 hb2 hcc
        simp only [List.all_cons, List.all_nil, Bool.and_eq_true, Bool.and_true] at h1
        obtain ⟨hq1, hq2, hq3⟩ := h1
        rw [if_pos rfl]
        refine iff_of_true ?_ ⟨?_, h2⟩
        · exact logpExpr_num_finite P qa qb qc (le_zero_num_iff.mp hq1)
            (le_zero_num_iff.mp hq2) (le_zero_num_iff.mp hq3)
        · simp only [List.all_cons, List.all_nil, Bool.and_eq_true, Bool.and_true]
          exact ⟨hq1, hq2, hq3⟩

/-- C7, counterexample: for p = [-1/2, 1/2, 1] every condition actually
checked by the source holds (p <= 1, sum(p) == 1, value >= 0,
sum(value) == n, n >= 0), yet the lower constraint p >= 0 fails; the
claim then demands negative infinity, but the log-density is NaN (the
value*ln(p) term takes the log of a negative number), because the bound
contains no p >= 0 condition. -/
theorem c7_counterexample :
    Multinomial.logp P0 [F.num 1, F.num 0, F.num 0] (F.num 1)
        [F.num (-(1/2)), F.num (1/2), F.num 1] = F.nan
    ∧ F.nan ≠ F.ninf
    ∧ ([F.num (-(1/2)), F.num (1/2), F.num 1].all (fun x => F.le (F.num 0) x)) = false := by
  refine ⟨?_, by decide, ?_⟩
  · have hT : (Multinomial.logpConds [F.num 1, F.num 0, F.num 0] (F.num 1)
        [F.num (-(1/2)), F.num (1/2), F.num 1]).all (fun b => b) = true := by
      norm_num [Multinomial.logpConds, listSum, F.add, F.eqv, F.le, F.lt]
    rw [Multinomial.logp, boundScalar_scalar_conds, if_pos hT]
    norm_num [Multinomial.logpExpr, listSum, F.lnFact, F.log, F.mul, F.add, F.neg, P0]
  · norm_num [F.le, F.lt, F.eqv]

/-- C7, witness: the amended theorem applied off the support (negative
infinity) and on the support (finite value) for n = 6,
p = [0.2, 0.3, 0.5]. -/
theorem c7_witness :
    Multinomial.logp P0 [F.num 2, F.num 0, F.num 0] (F.num 6) pfix3 = F.ninf
    ∧ F.isFinite (Multinomial.logp P0 [F.num 1, F.num 0, F.num 5] (F.num 6) pfix3) = true := by
  constructor
  · refine (c7_amended P0 [F.num 2, F.num 0, F.num 0] (F.num 6) pfix3).2.1 ?_
    norm_num [Multinomial.logpConds, listSum, F.add, F.eqv, F.le, F.lt, pfix3]
  · refine ((c7_amended P0 [F.num 1, F.num 0, F.num 5] (F.num 6) pfix3).2.2 rfl).mpr
      ⟨by decide, ?_⟩
    norm_num [listSum, F.add, F.eqv]
